import Mathlib

/-!
# grpc-opentracing (Go, package `otgrpc`): carrier adapter and server interceptor

A shallow embedding of `go/otgrpc/shared.go`, `go/otgrpc/options.go` and
`go/otgrpc/server.go`, followed by the properties proved about it.

Conventions of the embedding.

* Memory is a list of backing arrays.  A slice is a header (array, offset,
  length, capacity) into it, so two slices may share cells, and `append` writes
  into spare capacity when there is some.
* A Go map is nil or an association list with pairwise distinct keys; the order
  of the list is the order in which one `range` statement happens to enumerate
  the map.  Go leaves that order unspecified, so statements about iteration are
  made for every list (and, after a write, for every rearrangement of the
  written map).
* A method that writes through a shared reference returns the updated value,
  or `none` when the Go statement panics.
* Go's `error` is `Option ε` (`none` is `nil`); an `interface{}` payload is a
  value of a type parameter.
* Calls into collaborators that live outside the package (the tracer, the
  application handler, `metadata.DecodeKeyValue`) are parameters.  What the
  interceptor does to them is recorded, in program order, as a list of `Event`s.
* A parameter is a total function: a nil function value and a panicking handler
  or tracer are not part of the model.
-/

set_option autoImplicit false

namespace builtin

/-- Go: a slice header of type `[]string`: the backing array it points into, the
offset of its first element, its length and its capacity.  The nil slice has
length and capacity zero. -/
structure Slice where
  array : Nat
  off : Nat
  len : Nat
  cap : Nat
  deriving DecidableEq, Repr

/-- Go: the nil slice, which is what a map read yields for an absent key. -/
def Slice.zero : Slice :=
  { array := 0, off := 0, len := 0, cap := 0 }

/-- Position `i` of a list replaced by `f` of what is there; positions beyond
the end count as holding `d`.  Every slice of a Go program lies within its
backing array, where this is the plain update of one position. -/
def modifyAt {α : Type} (d : α) (f : α → α) : List α → Nat → List α
  | [], 0 => [f d]
  | [], i + 1 => d :: modifyAt d f [] i
  | x :: xs, 0 => f x :: xs
  | x :: xs, i + 1 => x :: modifyAt d f xs i

/-- Go: the read of cell `i` of backing array `a`. -/
def load (arrays : List (List String)) (a i : Nat) : String :=
  (arrays.getD a []).getD i ""

/-- Go: the write of `v` into cell `i` of backing array `a`. -/
def store (arrays : List (List String)) (a i : Nat) (v : String) : List (List String) :=
  modifyAt [] (fun arr => modifyAt "" (fun _ => v) arr i) arrays a

/-- The elements of a slice, read from memory. -/
def Slice.elems (arrays : List (List String)) (s : Slice) : List String :=
  (List.range s.len).map (fun i => load arrays s.array (s.off + i))

/-- Go: the built-in `append(s, v)` for one value.  With spare capacity the value
is written into the cell after the last element of `s`, in the backing array of
`s`; without, the elements are copied into a new backing array that has
`growth (len + 1)` cells to spare, `growth` being the growth policy of the
runtime.  The result is the new memory and the new slice header. -/
def append (growth : Nat → Nat) (arrays : List (List String)) (s : Slice) (v : String) :
    List (List String) × Slice :=
  if s.len < s.cap then
    (store arrays s.array (s.off + s.len) v, { s with len := s.len + 1 })
  else
    (arrays ++ [s.elems arrays ++ [v] ++ List.replicate (growth (s.len + 1)) ""],
      { array := arrays.length, off := 0, len := s.len + 1,
        cap := s.len + 1 + growth (s.len + 1) })

/-- Go: the comma-ok map read `val, ok := m[key]`. -/
def lookup {V : Type} : List (String × V) → String → Option V
  | [], _ => none
  | (k, val) :: rest, key => if k = key then some val else lookup rest key

/-- Go: the map write `m[key] = val` on an allocated map; an existing entry is
replaced in place, a new key gets a new entry. -/
def assign {V : Type} : List (String × V) → String → V → List (String × V)
  | [], key, val => [(key, val)]
  | (k, old) :: rest, key, val =>
    if k = key then (k, val) :: rest else (k, old) :: assign rest key val

/-- The slice lies within an allocated backing array, as every slice of a Go
program does; a slice without capacity points nowhere. -/
def Slice.valid (arrays : List (List String)) (s : Slice) : Prop :=
  s.len ≤ s.cap ∧
    (s.cap = 0 ∨ (s.array < arrays.length ∧ s.off + s.cap ≤ (arrays.getD s.array []).length))

/-- Cell `i` of backing array `a` holds one of the elements of the slice. -/
def Slice.covers (s : Slice) (a i : Nat) : Prop :=
  s.array = a ∧ s.off ≤ i ∧ i < s.off + s.len

end builtin

namespace metadata

open builtin

/-- Go: `type MD map[string][]string` (package `google.golang.org/grpc/metadata`),
together with the memory its slices point into.  `entries = none` is the nil
map. -/
structure MD where
  arrays : List (List String)
  entries : Option (List (String × Slice))
  deriving DecidableEq, Repr

/-- What reading a map yields: for each key, in enumeration order, the elements
of the slice stored under it. -/
abbrev Contents := List (String × List String)

/-- The contents of a map; the nil map reads as empty. -/
def MD.contents (md : MD) : Contents :=
  match md.entries with
  | none => []
  | some es => es.map (fun kv => (kv.1, kv.2.elems md.arrays))

/-- Go: the map read `md[key]`, which yields the nil slice for an absent key and
for the nil map. -/
def MD.index (md : MD) (key : String) : Slice :=
  match md.entries with
  | none => Slice.zero
  | some es => (lookup es key).getD Slice.zero

/-- Go: `metadata.New(nil)`, a freshly allocated empty `MD`. -/
def New : MD :=
  { arrays := [], entries := some [] }

/-- The stored (key, value) occurrences of a map, key by key in enumeration
order and, within one key, in the stored order of its values. -/
def Contents.pairs (md : Contents) : List (String × String) :=
  md.flatMap (fun kv => kv.2.map (fun v => (kv.1, v)))

/-- The total number of values stored in a map. -/
def Contents.totalValues (md : Contents) : Nat :=
  (md.map (fun kv => kv.2.length)).sum

/-- Every slice stored in the map lies within an allocated backing array. -/
def MD.valid (md : MD) : Prop :=
  ∀ es, md.entries = some es → ∀ kv ∈ es, kv.2.valid md.arrays

/-- The cell into which `append` would write in place for the slice stored under
`key` belongs to no slice stored under another key. -/
def MD.spareCellFree (md : MD) (key : String) : Prop :=
  (md.index key).len < (md.index key).cap →
    ∀ es, md.entries = some es → ∀ kv ∈ es, kv.1 ≠ key →
      ¬ kv.2.covers (md.index key).array ((md.index key).off + (md.index key).len)

/-- Go: `context.Context` as the interceptor sees it: the metadata stored in it
(if any), the span stored in it (if any), and everything else it carries. -/
structure Context (S κ : Type) where
  md : Option MD
  span : Option S
  rest : κ
  deriving DecidableEq, Repr

/-- Go: `metadata.FromContext(ctx)`, returning `(md, ok)`; `none` is `ok = false`. -/
def FromContext {S κ : Type} (ctx : Context S κ) : Option MD := ctx.md

end metadata

namespace base64

/-- The six-bit value of a character of the standard base64 alphabet. -/
def value (c : Char) : Option Nat :=
  if 65 ≤ c.toNat ∧ c.toNat ≤ 90 then some (c.toNat - 65)
  else if 97 ≤ c.toNat ∧ c.toNat ≤ 122 then some (c.toNat - 97 + 26)
  else if 48 ≤ c.toNat ∧ c.toNat ≤ 57 then some (c.toNat - 48 + 52)
  else if c = '+' then some 62
  else if c = '/' then some 63
  else none

/-- Decoding of padded standard base64, four characters at a time; padding is
accepted in the last group only.  The result is the list of decoded bytes. -/
def decodeGroups : List Char → Option (List Nat)
  | [] => some []
  | [a, b, '=', '='] =>
    match value a, value b with
    | some x, some y => some [(x * 4 + y / 16) % 256]
    | _, _ => none
  | [a, b, c, '='] =>
    match value a, value b, value c with
    | some x, some y, some z => some [(x * 4 + y / 16) % 256, (y * 16 + z / 4) % 256]
    | _, _, _ => none
  | a :: b :: c :: d :: rest =>
    match value a, value b, value c, value d, decodeGroups rest with
    | some x, some y, some z, some u, some tl =>
      some ((x * 4 + y / 16) % 256 :: (y * 16 + z / 4) % 256 :: (z * 64 + u) % 256 :: tl)
    | _, _, _, _, _ => none
  | _ => none

/-- Go: `base64.StdEncoding.DecodeString(s)`; carriage returns and line feeds
are skipped, `none` is the corrupt-input error.  A decoded byte is kept as the
character with that code. -/
def DecodeString (s : String) : Option String :=
  (decodeGroups (s.data.filter (fun c => c ≠ '\r' ∧ c ≠ '\n'))).map
    (fun bytes => String.mk (bytes.map Char.ofNat))

end base64

namespace metadata

/-- Go: `binHdrSuffix = "-bin"`. -/
def binHdrSuffix : String := "-bin"

/-- Go: `strings.HasSuffix(s, suffix)`. -/
def HasSuffix (s suffix : String) : Bool :=
  suffix.data.isSuffixOf s.data

/-- The errors of the carrier model: a corrupt base64 value, or an error made up
by a visitor. -/
inductive CarrierError where
  | corruptInput (key val : String)
  | visitor (code : Nat)
  deriving DecidableEq, Repr

/-- Modelled from the spec: `metadata.DecodeKeyValue` of the gRPC library, which
is not part of this repository.  The spec describes "a reversible string/binary
encoding scheme where a key suffix flags binary-encoded values" whose decode
failures are errors: a key ending in `-bin` has its value base64-decoded, any
other entry is returned as it is. -/
def DecodeKeyValue (k v : String) : Except CarrierError (String × String) :=
  if HasSuffix k binHdrSuffix then
    match base64.DecodeString v with
    | some val => .ok (k, val)
    | none => .error (.corruptInput k v)
  else .ok (k, v)

end metadata

namespace otgrpc

open builtin metadata

/-! ## `shared.go` -/

/-- Go: `opentracing.Tag{Key, Value}` with a string value. -/
structure Tag where
  Key : String
  Value : String
  deriving DecidableEq, Repr

/-- Go: `ext.Component`, the tag name `"component"` of `opentracing-go/ext`. -/
def Component : String := "component"

/-- Go: `gRPCComponentTag = opentracing.Tag{string(ext.Component), "gRPC"}`. -/
def gRPCComponentTag : Tag := ⟨Component, "gRPC"⟩

/-- Go: `type metadataReaderWriter struct { metadata.MD }`. -/
structure metadataReaderWriter where
  MD : metadata.MD
  deriving DecidableEq, Repr

/-- Go: `func (w metadataReaderWriter) Set(key, val string)`:
`w.MD[key] = append(w.MD[key], val)`.  The right-hand side is evaluated first;
the assignment to an entry of a nil map panics (`none`). -/
def metadataReaderWriter.Set (growth : Nat → Nat) (w : metadataReaderWriter)
    (key val : String) : Option metadataReaderWriter :=
  let appended := append growth w.MD.arrays (w.MD.index key) val
  match w.MD.entries with
  | none => none
  | some es => some ⟨{ arrays := appended.1, entries := some (assign es key appended.2) }⟩

/-- One invocation of the visitor passed to `ForeachKey`: the decoded pair it
was given and the error it returned. -/
structure Call (ε : Type) where
  key : String
  val : String
  ret : Option ε
  deriving DecidableEq, Repr

/-- The decoded pair a visitor invocation was given. -/
def Call.pair {ε : Type} (c : Call ε) : String × String := (c.key, c.val)

/-- What one `ForeachKey` call leaves behind: the visitor's own state, the
visitor invocations in program order, the map held by the receiver, and the
returned error. -/
structure Visited (σ ε : Type) where
  state : σ
  calls : List (Call ε)
  MD : metadata.MD
  err : Option ε

/-- Go: the inner loop `for _, v := range vals { ... }` of `ForeachKey` for one
key `k`.  The result carries `some err` when the loop executed `return err`. -/
def ForeachKey.vals {σ ε : Type} (decode : String → String → Except ε (String × String))
    (handler : σ → String → String → σ × Option ε) (k : String) :
    List String → σ × List (Call ε) → (σ × List (Call ε)) × Option ε
  | [], acc => (acc, none)
  | v :: vs, acc =>
    match decode k v with
    | .ok (dk, dv) =>
      match handler acc.1 dk dv with
      | (st, some err) => ((st, acc.2 ++ [⟨dk, dv, some err⟩]), some err)
      | (st, none) => ForeachKey.vals decode handler k vs (st, acc.2 ++ [⟨dk, dv, none⟩])
    | .error err => (acc, some err)

/-- Go: the outer loop `for k, vals := range w.MD { ... }` of `ForeachKey`,
followed by `return nil`; the list is what the `range` statement reads, key by
key. -/
def ForeachKey.keys {σ ε : Type} (decode : String → String → Except ε (String × String))
    (handler : σ → String → String → σ × Option ε) :
    List (String × List String) → σ × List (Call ε) → (σ × List (Call ε)) × Option ε
  | [], acc => (acc, none)
  | (k, vals) :: rest, acc =>
    match ForeachKey.vals decode handler k vals acc with
    | (acc', some err) => (acc', some err)
    | (acc', none) => ForeachKey.keys decode handler rest acc'

/-- Go: `func (w metadataReaderWriter) ForeachKey(handler func(key, val string) error) error`.
`decode` stands for `metadata.DecodeKeyValue`; `handler` is the visitor, a
closure over its own state `σ`, started in state `s`. -/
def metadataReaderWriter.ForeachKey {σ ε : Type}
    (decode : String → String → Except ε (String × String))
    (w : metadataReaderWriter) (handler : σ → String → String → σ × Option ε) (s : σ) :
    Visited σ ε :=
  let r := ForeachKey.keys decode handler w.MD.contents (s, [])
  { state := r.1.1, calls := r.1.2, MD := w.MD, err := r.2 }

/-! ## `options.go` -/

/-- Go: `type options struct { logPayloads bool }`. -/
structure options where
  logPayloads : Bool
  deriving DecidableEq, Repr

/-- Go: `type Option func(o *options)`; the mutation of `*o` is the returned
value.  (Named `OptionFunc` here, `Option` being taken.) -/
abbrev OptionFunc := options → options

/-- Go: `func LogPayloads() Option`, returning `func(o *options) { o.logPayloads = true }`. -/
def LogPayloads : OptionFunc :=
  fun o => { o with logPayloads := true }

/-- Go: `func newOptions() *options`, the default options. -/
def newOptions : options :=
  { logPayloads := false }

/-- Go: `func (o *options) apply(opts ...Option)`: `for _, opt := range opts { opt(o) }`. -/
def options.apply (o : options) : List OptionFunc → options
  | [] => o
  | opt :: opts => options.apply (opt o) opts

/-! ## `server.go` -/

/-- Go: the `opentracing.StartSpanOption` values the interceptor builds:
`ext.RPCServerOption(client)`, where `client` may be the nil span context, and
an `opentracing.Tag`. -/
inductive StartSpanOption (C : Type) where
  | RPCServerOption (client : Option C)
  | Tag (tag : Tag)
  deriving DecidableEq, Repr

/-- The parent a start-span option names: `ext.RPCServerOption(client)` makes the
span a child of `client` when `client` is not nil and a root span when it is
nil; a tag names no parent. -/
def StartSpanOption.parent {C : Type} : StartSpanOption C → Option C
  | .RPCServerOption client => client
  | .Tag _ => none

/-- The parent contexts an option list hands to `StartSpan`; the empty list
means a root span. -/
def parents {C : Type} (opts : List (StartSpanOption C)) : List C :=
  opts.filterMap StartSpanOption.parent

/-- Go: `opentracing.Tracer`, as far as the interceptor uses it.  `Extract` is
always called with the format `opentracing.TextMap` and returns a span context
(possibly nil) and an error (possibly nil); `StartSpan` returns the new span. -/
structure Tracer (C S ε : Type) where
  Extract : metadataReaderWriter → Option C × Option ε
  StartSpan : String → List (StartSpanOption C) → S

/-- Go: `grpc.UnaryServerInfo`, of which the interceptor reads `FullMethod`. -/
structure UnaryServerInfo where
  FullMethod : String
  deriving DecidableEq, Repr

/-- Go: `opentracing.ContextWithSpan(ctx, span)`. -/
def ContextWithSpan {S κ : Type} (ctx : Context S κ) (span : S) : Context S κ :=
  { ctx with span := some span }

/-- Go: `grpc.UnaryHandler`, `func(ctx, req) (resp, err)`. -/
abbrev UnaryHandler (S κ α β ε : Type) := Context S κ → α → β × Option ε

/-- The `interface{}` payload of a logged event: the request, the response, or
the handler's error. -/
inductive Payload (α β ε : Type) where
  | req (v : α)
  | resp (v : β)
  | err (e : ε)
  deriving DecidableEq, Repr

/-- Go: `ext.Error`, the boolean tag name `"error"` of `opentracing-go/ext`. -/
def Error : String := "error"

/-- The calls the interceptor makes, in program order.  `SetTag span Error true`
is what `ext.Error.Set(span, true)` does; `handler ctx req` is the invocation of
the application handler. -/
inductive Event (C S κ α β ε : Type) where
  | Extract (carrier : metadataReaderWriter)
  | StartSpan (operationName : String) (opts : List (StartSpanOption C))
  | LogEventWithPayload (span : S) (event : String) (payload : Payload α β ε)
  | SetTag (span : S) (key : String) (value : Bool)
  | handler (ctx : Context S κ) (req : α)
  | Finish (span : S)
  deriving DecidableEq, Repr

/-- One run of the interceptor: the calls it made and the pair it returned. -/
structure Outcome (C S κ α β ε : Type) where
  events : List (Event C S κ α β ε)
  resp : β
  err : Option ε

/-- Go: `func OpenTracingServerInterceptor(tracer, optFuncs...) grpc.UnaryServerInterceptor`.
The first two arguments build the interceptor, the remaining four are one call
of the returned closure.  The statement
`if err != nil && err != opentracing.ErrSpanContextNotFound { }` has an empty
body and contributes nothing; the deferred `span.Finish()` runs after the
return values are set. -/
def OpenTracingServerInterceptor {C S κ α β ε : Type}
    (tracer : Tracer C S ε) (optFuncs : List OptionFunc)
    (ctx : Context S κ) (req : α) (info : UnaryServerInfo)
    (handler : UnaryHandler S κ α β ε) : Outcome C S κ α β ε :=
  let otgrpcOpts := newOptions.apply optFuncs
  let md : MD :=
    match FromContext ctx with
    | some md => md
    | none => New
  let extracted := tracer.Extract ⟨md⟩
  let spanContext := extracted.1
  let opts := [StartSpanOption.RPCServerOption spanContext, StartSpanOption.Tag gRPCComponentTag]
  let span := tracer.StartSpan info.FullMethod opts
  let ev₀ : List (Event C S κ α β ε) := [.Extract ⟨md⟩, .StartSpan info.FullMethod opts]
  let ctx := ContextWithSpan ctx span
  let ev₁ :=
    if otgrpcOpts.logPayloads then ev₀ ++ [.LogEventWithPayload span "gRPC request" (.req req)]
    else ev₀
  let returned := handler ctx req
  let ev₂ := ev₁ ++ [.handler ctx req]
  let ev₃ :=
    match returned.2 with
    | none =>
      if otgrpcOpts.logPayloads then
        ev₂ ++ [.LogEventWithPayload span "gRPC response" (.resp returned.1)]
      else ev₂
    | some err =>
      ev₂ ++ [.SetTag span Error true, .LogEventWithPayload span "gRPC error" (.err err)]
  { events := ev₃ ++ [.Finish span], resp := returned.1, err := returned.2 }

/-! ## Names for the values the statements below talk about -/

/-- The single-loop reading of `ForeachKey`: the body of the inner loop run over
the stored (key, value) occurrences in enumeration order. -/
def ForeachKey.flat {σ ε : Type} (decode : String → String → Except ε (String × String))
    (handler : σ → String → String → σ × Option ε) :
    List (String × String) → σ × List (Call ε) → (σ × List (Call ε)) × Option ε
  | [], acc => (acc, none)
  | (k, v) :: ps, acc =>
    match decode k v with
    | .ok (dk, dv) =>
      match handler acc.1 dk dv with
      | (st, some err) => ((st, acc.2 ++ [⟨dk, dv, some err⟩]), some err)
      | (st, none) => ForeachKey.flat decode handler ps (st, acc.2 ++ [⟨dk, dv, none⟩])
    | .error err => (acc, some err)

/-- The visitor fed a list of pairs one after the other from state `s`: its
final state and what it returned each time. -/
def replay {σ ε : Type} (handler : σ → String → String → σ × Option ε) :
    σ → List (String × String) → σ × List (Option ε)
  | s, [] => (s, [])
  | s, (k, v) :: ps =>
    ((replay handler (handler s k v).1 ps).1,
      (handler s k v).2 :: (replay handler (handler s k v).1 ps).2)

/-- The carrier the interceptor hands to `Extract`: the metadata of the call
context, or a fresh empty map when the context has none. -/
def carrierOf {S κ : Type} (ctx : Context S κ) : metadataReaderWriter :=
  ⟨(FromContext ctx).getD New⟩

/-- The span context `Extract` returned for the call (nil is `none`). -/
def extractedContext {C S κ ε : Type} (tracer : Tracer C S ε) (ctx : Context S κ) : Option C :=
  (tracer.Extract (carrierOf ctx)).1

/-- The error `Extract` returned for the call (nil is `none`). -/
def extractError {C S κ ε : Type} (tracer : Tracer C S ε) (ctx : Context S κ) : Option ε :=
  (tracer.Extract (carrierOf ctx)).2

/-- The span the tracer returns for the call's `StartSpan`. -/
def serverSpan {C S κ ε : Type} (tracer : Tracer C S ε) (ctx : Context S κ)
    (info : UnaryServerInfo) : S :=
  tracer.StartSpan info.FullMethod
    [.RPCServerOption (extractedContext tracer ctx), .Tag gRPCComponentTag]

/-- The context the handler is invoked with: the call context with the server
span attached. -/
def handlerContext {C S κ ε : Type} (tracer : Tracer C S ε) (ctx : Context S κ)
    (info : UnaryServerInfo) : Context S κ :=
  ContextWithSpan ctx (serverSpan tracer ctx info)

/-- An event that writes to the given span: a logged event or a tag. -/
def Event.writesTo {C S κ α β ε : Type} (span : S) (e : Event C S κ α β ε) : Prop :=
  (∃ label payload, e = .LogEventWithPayload span label payload) ∨
    (∃ key value, e = .SetTag span key value)

/-- A sample tracer over natural-number contexts and spans whose `Extract`
returns the given pair and whose `StartSpan` returns span `7`. -/
def sampleTracer (extracted : Option Nat × Option String) : Tracer Nat Nat String :=
  { Extract := fun _ => extracted, StartSpan := fun _ _ => 7 }

/-- A sample call context without metadata and without a span. -/
def sampleContext : Context Nat Unit :=
  { md := none, span := none, rest := () }

/-- A sample visitor that counts its invocations and never fails. -/
def countingVisitor : Nat → String → String → Nat × Option CarrierError :=
  fun n _ _ => (n + 1, none)

/-- A sample method description. -/
def sampleInfo : UnaryServerInfo :=
  { FullMethod := "/Svc/Echo" }

/-- A sample handler that succeeds with the response `"pong"`. -/
def pongHandler : UnaryHandler Nat Unit String String String :=
  fun _ _ => ("pong", none)

/-- A sample handler that fails with the error `"boom"`. -/
def failingHandler : UnaryHandler Nat Unit String String String :=
  fun _ _ => ("", some "boom")

/-- A sample growth policy: a new backing array gets as many spare cells as it
has elements. -/
def sampleGrowth : Nat → Nat :=
  fun n => n

/-- A sample carrier: a key with two values and a binary key with one value that
is valid base64, each slice with a backing array of its own. -/
def sampleCarrier : metadataReaderWriter :=
  ⟨{ arrays := [["1", "2"], ["aGk="]],
     entries := some [("a", ⟨0, 0, 2, 2⟩), ("k-bin", ⟨1, 0, 1, 1⟩)] }⟩

/-- A sample carrier whose binary key has a valid value followed by a value that
is not base64. -/
def malformedCarrier : metadataReaderWriter :=
  ⟨{ arrays := [["aGk=", "!"], ["1"]],
     entries := some [("k-bin", ⟨0, 0, 2, 2⟩), ("a", ⟨1, 0, 1, 1⟩)] }⟩

/-- A sample carrier whose two keys share one backing array `base` of three
cells: `a` is `base[:2]`, with one cell to spare, and `b` is `base[:3]`. -/
def aliasedCarrier : metadataReaderWriter :=
  ⟨{ arrays := [["1", "2", "x"]],
     entries := some [("a", ⟨0, 0, 2, 3⟩), ("b", ⟨0, 0, 3, 3⟩)] }⟩

/-- A sample carrier holding the nil map. -/
def nilCarrier : metadataReaderWriter :=
  ⟨{ arrays := [], entries := none }⟩

/-- A sample carrier whose key `a` has one cell to spare in a backing array of
its own. -/
def roomyCarrier : metadataReaderWriter :=
  ⟨{ arrays := [["1", "2", ""], ["9"]],
     entries := some [("a", ⟨0, 0, 2, 3⟩), ("b", ⟨1, 0, 1, 1⟩)] }⟩

/-- The carrier `roomyCarrier` after `Set("a", "3")`. -/
def roomyCarrierSet : metadataReaderWriter :=
  ⟨{ arrays := [["1", "2", "3"], ["9"]],
     entries := some [("a", ⟨0, 0, 3, 3⟩), ("b", ⟨1, 0, 1, 1⟩)] }⟩

/-- A sample carrier with one key and one value. -/
def singleCarrier : metadataReaderWriter :=
  ⟨{ arrays := [["1"]], entries := some [("a", ⟨0, 0, 1, 1⟩)] }⟩

/-- The carrier `singleCarrier` after `Set("b", "2")` under `sampleGrowth`. -/
def singleCarrierSet : metadataReaderWriter :=
  ⟨{ arrays := [["1"], ["2", ""]],
     entries := some [("a", ⟨0, 0, 1, 1⟩), ("b", ⟨1, 0, 1, 2⟩)] }⟩

end otgrpc

namespace otgrpc

open builtin metadata

/-! ## The server interceptor -/

section interceptor

variable {C S κ α β ε : Type}

/-- The events of one run, spelled out. -/
theorem interceptor_events (tracer : Tracer C S ε) (optFuncs : List OptionFunc)
    (ctx : Context S κ) (req : α) (info : UnaryServerInfo) (handler : UnaryHandler S κ α β ε) :
    (OpenTracingServerInterceptor tracer optFuncs ctx req info handler).events =
      [.Extract (carrierOf ctx),
        .StartSpan info.FullMethod
          [.RPCServerOption (extractedContext tracer ctx), .Tag gRPCComponentTag]]
      ++ (if (newOptions.apply optFuncs).logPayloads then
            [.LogEventWithPayload (serverSpan tracer ctx info) "gRPC request" (.req req)]
          else [])
      ++ [.handler (handlerContext tracer ctx info) req]
      ++ (match (handler (handlerContext tracer ctx info) req).2 with
          | none =>
            if (newOptions.apply optFuncs).logPayloads then
              [.LogEventWithPayload (serverSpan tracer ctx info) "gRPC response"
                (.resp (handler (handlerContext tracer ctx info) req).1)]
            else []
          | some err =>
            [.SetTag (serverSpan tracer ctx info) Error true,
              .LogEventWithPayload (serverSpan tracer ctx info) "gRPC error" (.err err)])
      ++ [.Finish (serverSpan tracer ctx info)] := by
  cases hmd : FromContext ctx <;>
  cases hlp : (newOptions.apply optFuncs).logPayloads <;>
  cases hret : (handler (handlerContext tracer ctx info) req).2 <;>
  simp_all [OpenTracingServerInterceptor, carrierOf, extractedContext, serverSpan,
    handlerContext]

/-- The pair one run returns, spelled out. -/
theorem interceptor_result (tracer : Tracer C S ε) (optFuncs : List OptionFunc)
    (ctx : Context S κ) (req : α) (info : UnaryServerInfo) (handler : UnaryHandler S κ α β ε) :
    (OpenTracingServerInterceptor tracer optFuncs ctx req info handler).resp
        = (handler (handlerContext tracer ctx info) req).1 ∧
      (OpenTracingServerInterceptor tracer optFuncs ctx req info handler).err
        = (handler (handlerContext tracer ctx info) req).2 := by
  cases hmd : FromContext ctx <;>
  simp [OpenTracingServerInterceptor, carrierOf, extractedContext, serverSpan,
    handlerContext, hmd]

/-- Options built from `LogPayloads` alone switch payload logging on exactly
when there is at least one of them. -/
theorem apply_logPayloads (o : options) (optFuncs : List OptionFunc)
    (h : ∀ opt ∈ optFuncs, opt = LogPayloads) :
    (o.apply optFuncs).logPayloads = (o.logPayloads || !optFuncs.isEmpty) := by
  induction optFuncs generalizing o with
  | nil => simp [options.apply]
  | cons opt opts ih =>
    have hopt : opt = LogPayloads := h opt (List.mem_cons_self _ _)
    have hrest : ∀ f ∈ opts, f = LogPayloads := fun f hf => h f (List.mem_cons_of_mem _ hf)
    rw [options.apply, ih _ hrest, hopt]
    simp [LogPayloads]

/-- C1: the interceptor returns exactly the pair the handler returned when
invoked with the derived context and the original request, whatever the tracer
extracted (a context, not-found, or any other error), whatever the call context
holds and whatever options were given; so an extraction error is never returned
and a nil handler error gives a nil interceptor error. -/
theorem interceptor_returns_handler_pair (tracer : Tracer C S ε) (optFuncs : List OptionFunc)
    (ctx : Context S κ) (req : α) (info : UnaryServerInfo) (handler : UnaryHandler S κ α β ε) :
    ((OpenTracingServerInterceptor tracer optFuncs ctx req info handler).resp,
      (OpenTracingServerInterceptor tracer optFuncs ctx req info handler).err)
        = handler (handlerContext tracer ctx info) req
    ∧ ((handler (handlerContext tracer ctx info) req).2 = none →
        (OpenTracingServerInterceptor tracer optFuncs ctx req info handler).err = none) := by
  obtain ⟨h₁, h₂⟩ := interceptor_result tracer optFuncs ctx req info handler
  refine ⟨?_, fun h => by rw [h₂, h]⟩
  rw [h₁, h₂]

/-- C2: every run of the interceptor makes its calls in this order: one
`Extract`, one `StartSpan`, some writes to the started span, one invocation of
the handler with the original request and the context holding that span, some
more writes to the span, and one `Finish` of that span as the very last call;
this is so whatever `Extract` returned and whatever the handler returned. -/
theorem interceptor_effect_order (tracer : Tracer C S ε) (optFuncs : List OptionFunc)
    (ctx : Context S κ) (req : α) (info : UnaryServerInfo) (handler : UnaryHandler S κ α β ε) :
    ∃ opts pre post,
      (OpenTracingServerInterceptor tracer optFuncs ctx req info handler).events =
        [.Extract (carrierOf ctx), .StartSpan info.FullMethod opts] ++ pre
          ++ [.handler (ContextWithSpan ctx (tracer.StartSpan info.FullMethod opts)) req]
          ++ post ++ [.Finish (tracer.StartSpan info.FullMethod opts)] ∧
      ∀ e ∈ pre ++ post, Event.writesTo (tracer.StartSpan info.FullMethod opts) e := by
  refine ⟨[.RPCServerOption (extractedContext tracer ctx), .Tag gRPCComponentTag], _, _,
    interceptor_events tracer optFuncs ctx req info handler, ?_⟩
  intro e he
  cases hlp : (newOptions.apply optFuncs).logPayloads <;>
  cases hret : (handler (handlerContext tracer ctx info) req).2 <;>
  simp [hlp, hret] at he <;>
  first
    | (rcases he with rfl | rfl <;> simp [Event.writesTo, serverSpan])
    | (rcases he with rfl | rfl | rfl <;> simp [Event.writesTo, serverSpan])

/-- C3: the second call of every run, and its only `StartSpan`, is
`StartSpan(info.FullMethod, ext.RPCServerOption(spanContext), gRPCComponentTag)`
with `spanContext` the context `Extract` returned and the tag equal to
`component = "gRPC"`; when `Extract` returned a context and no error, that
context is the one parent handed to `StartSpan`. -/
theorem interceptor_start_span (tracer : Tracer C S ε) (optFuncs : List OptionFunc)
    (ctx : Context S κ) (req : α) (info : UnaryServerInfo) (handler : UnaryHandler S κ α β ε) :
    (∃ rest,
      (OpenTracingServerInterceptor tracer optFuncs ctx req info handler).events =
        .Extract (carrierOf ctx) ::
        .StartSpan info.FullMethod
          [.RPCServerOption (tracer.Extract (carrierOf ctx)).1, .Tag ⟨"component", "gRPC"⟩] ::
        rest ∧
      ∀ name opts, Event.StartSpan name opts ∉ rest) ∧
    ∀ c, tracer.Extract (carrierOf ctx) = (some c, none) →
      parents [StartSpanOption.RPCServerOption (tracer.Extract (carrierOf ctx)).1,
        .Tag ⟨"component", "gRPC"⟩] = [c] := by
  refine ⟨⟨(if (newOptions.apply optFuncs).logPayloads then
            [.LogEventWithPayload (serverSpan tracer ctx info) "gRPC request" (.req req)]
          else [])
      ++ [.handler (handlerContext tracer ctx info) req]
      ++ (match (handler (handlerContext tracer ctx info) req).2 with
          | none =>
            if (newOptions.apply optFuncs).logPayloads then
              [.LogEventWithPayload (serverSpan tracer ctx info) "gRPC response"
                (.resp (handler (handlerContext tracer ctx info) req).1)]
            else []
          | some err =>
            [.SetTag (serverSpan tracer ctx info) Error true,
              .LogEventWithPayload (serverSpan tracer ctx info) "gRPC error" (.err err)])
      ++ [.Finish (serverSpan tracer ctx info)], ?_, ?_⟩, ?_⟩
  · rw [interceptor_events]
    simp only [List.cons_append, List.nil_append, List.append_assoc, extractedContext,
      gRPCComponentTag, Component]
  · intro name opts
    cases hlp : (newOptions.apply optFuncs).logPayloads <;>
    cases hret : (handler (handlerContext tracer ctx info) req).2 <;>
    simp
  · intro c hc
    simp [parents, StartSpanOption.parent, hc]

/-- C4 (as the code has it): when `Extract` returns an error, the run still is
`Extract`, then one `StartSpan` that is handed the context returned with the
error as it is, then the handler, invoked once with the original request and
the call context extended by the span only, then `Finish`; the span is a root
span when that context is nil and a child of that context otherwise; and the
handler's pair is what the interceptor returns. -/
theorem interceptor_extract_error (tracer : Tracer C S ε) (optFuncs : List OptionFunc)
    (ctx : Context S κ) (req : α) (info : UnaryServerInfo) (handler : UnaryHandler S κ α β ε)
    (sc : Option C) (e : ε) (hext : tracer.Extract (carrierOf ctx) = (sc, some e)) :
    (∃ pre post,
      (OpenTracingServerInterceptor tracer optFuncs ctx req info handler).events =
        [.Extract (carrierOf ctx),
          .StartSpan info.FullMethod [.RPCServerOption sc, .Tag gRPCComponentTag]]
          ++ pre
          ++ [.handler ({ ctx with span := some (tracer.StartSpan info.FullMethod
                [.RPCServerOption sc, .Tag gRPCComponentTag]) }) req]
          ++ post
          ++ [.Finish (tracer.StartSpan info.FullMethod
                [.RPCServerOption sc, .Tag gRPCComponentTag])] ∧
      ∀ ev ∈ pre ++ post,
        Event.writesTo (tracer.StartSpan info.FullMethod
          [.RPCServerOption sc, .Tag gRPCComponentTag]) ev) ∧
    parents [StartSpanOption.RPCServerOption sc, .Tag gRPCComponentTag] = sc.toList ∧
    (sc = none →
      parents [StartSpanOption.RPCServerOption sc, .Tag gRPCComponentTag] = []) ∧
    ((OpenTracingServerInterceptor tracer optFuncs ctx req info handler).resp,
      (OpenTracingServerInterceptor tracer optFuncs ctx req info handler).err)
        = handler ({ ctx with span := some (tracer.StartSpan info.FullMethod
            [.RPCServerOption sc, .Tag gRPCComponentTag]) }) req := by
  have hsc : extractedContext tracer ctx = sc := by rw [extractedContext, hext]
  have hspan : serverSpan tracer ctx info = tracer.StartSpan info.FullMethod
      [.RPCServerOption sc, .Tag gRPCComponentTag] := by rw [serverSpan, hsc]
  have hctx : handlerContext tracer ctx info = { ctx with span := some (tracer.StartSpan
      info.FullMethod [.RPCServerOption sc, .Tag gRPCComponentTag]) } := by
    rw [handlerContext, hspan]
    rfl
  have hparents : parents [StartSpanOption.RPCServerOption sc, .Tag gRPCComponentTag]
      = sc.toList := by
    cases sc <;> simp [parents, StartSpanOption.parent]
  have hevents := interceptor_events tracer optFuncs ctx req info handler
  rw [hsc, hspan, hctx] at hevents
  refine ⟨⟨_, _, hevents, ?_⟩, hparents, ?_, ?_⟩
  · intro ev hev
    cases hlp : (newOptions.apply optFuncs).logPayloads <;>
    cases hret : (handler ({ ctx with span := some (tracer.StartSpan info.FullMethod
        [.RPCServerOption sc, .Tag gRPCComponentTag]) }) req).2 <;>
    simp [hlp, hret] at hev <;>
    first
      | (rcases hev with rfl | rfl <;> simp [Event.writesTo])
      | (rcases hev with rfl | rfl | rfl <;> simp [Event.writesTo])
  · intro hnone
    rw [hparents, hnone]
    rfl
  · obtain ⟨h₁, h₂⟩ := interceptor_result tracer optFuncs ctx req info handler
    rw [h₁, h₂, hctx]

/-- C5: the span gets the error tag, and an event labelled `gRPC error` carrying
the handler's error, exactly when the handler returned a non-nil error, with or
without payload logging; when the handler succeeds no call of the run sets the
error tag or logs an error event. -/
theorem interceptor_error_recording (tracer : Tracer C S ε) (optFuncs : List OptionFunc)
    (ctx : Context S κ) (req : α) (info : UnaryServerInfo) (handler : UnaryHandler S κ α β ε) :
    (Event.SetTag (serverSpan tracer ctx info) Error true ∈
        (OpenTracingServerInterceptor tracer optFuncs ctx req info handler).events ↔
      (handler (handlerContext tracer ctx info) req).2 ≠ none) ∧
    (∀ e, Event.LogEventWithPayload (serverSpan tracer ctx info) "gRPC error" (.err e) ∈
        (OpenTracingServerInterceptor tracer optFuncs ctx req info handler).events ↔
      (handler (handlerContext tracer ctx info) req).2 = some e) ∧
    ((handler (handlerContext tracer ctx info) req).2 = none →
      ∀ ev ∈ (OpenTracingServerInterceptor tracer optFuncs ctx req info handler).events,
        (∀ span key value, ev ≠ .SetTag span key value) ∧
        (∀ span payload, ev ≠ .LogEventWithPayload span "gRPC error" payload) ∧
        (∀ span label e, ev ≠ .LogEventWithPayload span label (.err e))) := by
  rw [interceptor_events]
  cases hlp : (newOptions.apply optFuncs).logPayloads <;>
  cases hret : (handler (handlerContext tracer ctx info) req).2 <;>
  simp [eq_comm]

/-- C6: for options built with `LogPayloads` (the one option the package offers):
the request is logged on the span, as the only write before the handler is
invoked, exactly when the option list contains `LogPayloads`; the handler's
response is logged, as the only write after the handler returns, exactly when
the list contains `LogPayloads` and the handler returned a nil error; with no
option and a succeeding handler the run logs no event at all. -/
theorem interceptor_payload_logging (tracer : Tracer C S ε) (optFuncs : List OptionFunc)
    (ctx : Context S κ) (req : α) (info : UnaryServerInfo) (handler : UnaryHandler S κ α β ε)
    (hopts : ∀ opt ∈ optFuncs, opt = LogPayloads) :
    (∃ pre post,
      (OpenTracingServerInterceptor tracer optFuncs ctx req info handler).events =
        [.Extract (carrierOf ctx),
          .StartSpan info.FullMethod
            [.RPCServerOption (extractedContext tracer ctx), .Tag gRPCComponentTag]]
          ++ pre ++ [.handler (handlerContext tracer ctx info) req] ++ post
          ++ [.Finish (serverSpan tracer ctx info)] ∧
      (LogPayloads ∈ optFuncs →
        pre = [.LogEventWithPayload (serverSpan tracer ctx info) "gRPC request" (.req req)]) ∧
      (LogPayloads ∉ optFuncs → pre = []) ∧
      (LogPayloads ∈ optFuncs → (handler (handlerContext tracer ctx info) req).2 = none →
        post = [.LogEventWithPayload (serverSpan tracer ctx info) "gRPC response"
          (.resp (handler (handlerContext tracer ctx info) req).1)]) ∧
      (LogPayloads ∉ optFuncs → (handler (handlerContext tracer ctx info) req).2 = none →
        post = []) ∧
      (∀ err, (handler (handlerContext tracer ctx info) req).2 = some err →
        post = [.SetTag (serverSpan tracer ctx info) Error true,
          .LogEventWithPayload (serverSpan tracer ctx info) "gRPC error" (.err err)])) ∧
    (optFuncs = [] → (handler (handlerContext tracer ctx info) req).2 = none →
      ∀ span label payload,
        Event.LogEventWithPayload span label payload ∉
          (OpenTracingServerInterceptor tracer optFuncs ctx req info handler).events) := by
  have hlog : (newOptions.apply optFuncs).logPayloads = !optFuncs.isEmpty := by
    rw [apply_logPayloads _ _ hopts]
    simp [newOptions]
  have hmem : LogPayloads ∈ optFuncs ↔ optFuncs ≠ [] := by
    constructor
    · intro h hnil
      rw [hnil] at h
      exact List.not_mem_nil _ h
    · intro h
      cases optFuncs with
      | nil => exact absurd rfl h
      | cons opt opts =>
        rw [hopts opt (List.mem_cons_self _ _)]
        exact List.mem_cons_self _ _
  constructor
  · refine ⟨_, _, interceptor_events tracer optFuncs ctx req info handler, ?_⟩
    rw [hlog, hmem]
    cases optFuncs <;>
    cases hret : (handler (handlerContext tracer ctx info) req).2 <;>
    simp
  · intro hnil hret span label payload
    rw [interceptor_events, hlog, hnil, hret]
    simp

end interceptor

/-! ## Memory: cells, slices and `append` -/

section memory

/-- Reading a list after one position was updated. -/
theorem modifyAt_getD {α : Type} (d : α) (f : α → α) (l : List α) (i j : Nat) :
    (modifyAt d f l i).getD j d = if j = i then f (l.getD i d) else l.getD j d := by
  induction l generalizing i j with
  | nil =>
    induction i generalizing j with
    | zero => cases j <;> simp [modifyAt]
    | succ i ih =>
      cases j with
      | zero => simp [modifyAt]
      | succ j =>
        have h := ih j
        simp only [modifyAt, List.getD_cons_succ, h, List.getD_nil, add_left_inj]
  | cons x xs ih =>
    cases i with
    | zero => cases j <;> simp [modifyAt]
    | succ i =>
      cases j with
      | zero => simp [modifyAt]
      | succ j => simp only [modifyAt, List.getD_cons_succ, ih, add_left_inj]

/-- Reading a cell after a write: the written cell holds the written value,
every other cell holds what it held. -/
theorem load_store (arrays : List (List String)) (a i : Nat) (v : String) (a' i' : Nat) :
    load (store arrays a i v) a' i' = if a' = a ∧ i' = i then v else load arrays a' i' := by
  unfold load store
  rw [modifyAt_getD]
  by_cases ha : a' = a
  · subst ha
    simp only [if_true, true_and]
    rw [modifyAt_getD]
  · simp [ha]

/-- Reading the first cells of a list that was extended at the end. -/
theorem range_getD_append (l pad : List String) :
    (List.range l.length).map (fun i => (l ++ pad).getD i "") = l := by
  induction l with
  | nil => simp
  | cons x xs ih =>
    rw [List.length_cons, List.range_succ_eq_map, List.map_cons, List.map_map]
    simp only [List.cons_append, List.getD_cons_zero]
    congr 1

/-- The length of the elements of a slice is its length. -/
theorem elems_length (arrays : List (List String)) (s : Slice) :
    (s.elems arrays).length = s.len := by
  simp [Slice.elems]

/-- A slice over the first cells of a new backing array holds those cells. -/
theorem elems_fresh (arrays : List (List String)) (l pad : List String) (cap : Nat) :
    Slice.elems (arrays ++ [l ++ pad])
      { array := arrays.length, off := 0, len := l.length, cap := cap } = l := by
  have hload : ∀ i, load (arrays ++ [l ++ pad]) arrays.length (0 + i) = (l ++ pad).getD i "" := by
    intro i
    simp [load, List.getD_eq_getElem?_getD]
  simp only [Slice.elems, hload]
  exact range_getD_append l pad

/-- After `append` the new slice holds the elements of the old one followed by
the appended value. -/
theorem elems_append_self (growth : Nat → Nat) (arrays : List (List String)) (s : Slice)
    (v : String) :
    (append growth arrays s v).2.elems (append growth arrays s v).1 = s.elems arrays ++ [v] := by
  unfold append
  by_cases hcap : s.len < s.cap
  · simp only [hcap, if_true, Slice.elems, List.range_succ, List.map_append, List.map_cons,
      List.map_nil]
    congr 1
    · apply List.map_congr_left
      intro i hi
      rw [load_store]
      have hlt : i < s.len := List.mem_range.mp hi
      have hne : ¬ (s.off + i = s.off + s.len) := by omega
      simp [hne]
    · rw [load_store]
      simp
  · simp only [hcap, if_false]
    have hlen : (s.elems arrays ++ [v]).length = s.len + 1 := by
      simp [elems_length]
    have key := elems_fresh arrays (s.elems arrays ++ [v])
      (List.replicate (growth (s.len + 1)) "") (s.len + 1 + growth (s.len + 1))
    rw [hlen] at key
    exact key

/-- After `append` to one slice, another slice that lies within an allocated
backing array and does not contain the cell written in place holds what it
held. -/
theorem elems_append_other (growth : Nat → Nat) (arrays : List (List String)) (s s' : Slice)
    (v : String) (hvalid : s'.valid arrays)
    (hfree : s.len < s.cap → ¬ s'.covers s.array (s.off + s.len)) :
    s'.elems (append growth arrays s v).1 = s'.elems arrays := by
  unfold append
  by_cases hcap : s.len < s.cap
  · simp only [hcap, if_true, Slice.elems]
    apply List.map_congr_left
    intro i hi
    have hlt : i < s'.len := List.mem_range.mp hi
    rw [load_store]
    have hne : ¬ (s'.array = s.array ∧ s'.off + i = s.off + s.len) := by
      rintro ⟨ha, hi'⟩
      apply hfree hcap
      exact ⟨ha, by omega, by omega⟩
    simp [hne]
  · simp only [hcap, if_false, Slice.elems]
    apply List.map_congr_left
    intro i hi
    have hlt : i < s'.len := List.mem_range.mp hi
    obtain ⟨hle, hzero | ⟨harr, _⟩⟩ := hvalid
    · omega
    · simp [load, List.getD_eq_getElem?_getD, List.getElem?_append_left harr]

/-- Reading after writing the same key. -/
theorem lookup_assign_self {V : Type} (es : List (String × V)) (key : String) (val : V) :
    lookup (assign es key val) key = some val := by
  induction es with
  | nil => simp [assign, lookup]
  | cons kv rest ih =>
    obtain ⟨k, old⟩ := kv
    by_cases hk : k = key
    · simp [assign, lookup, hk]
    · simp [assign, lookup, hk, ih]

/-- Reading another key after a write. -/
theorem lookup_assign_other {V : Type} (es : List (String × V)) (key other : String) (val : V)
    (hne : other ≠ key) : lookup (assign es key val) other = lookup es other := by
  have hne2 : ¬ key = other := fun h => hne h.symm
  induction es with
  | nil => simp [assign, lookup, hne2]
  | cons kv rest ih =>
    obtain ⟨k, old⟩ := kv
    by_cases hk : k = key
    · subst hk
      simp [assign, lookup, hne2]
    · by_cases hko : k = other
      · subst hko
        simp [assign, lookup, hk]
      · simp [assign, lookup, hk, hko, ih]

/-- After a write the written entry is in the map. -/
theorem mem_assign {V : Type} (es : List (String × V)) (key : String) (val : V) :
    (key, val) ∈ assign es key val := by
  induction es with
  | nil => simp [assign]
  | cons kv rest ih =>
    obtain ⟨k, old⟩ := kv
    by_cases hk : k = key
    · simp [assign, hk]
    · simp [assign, hk, ih]

/-- What a map read finds is an entry of the map. -/
theorem mem_of_lookup {V : Type} (es : List (String × V)) (key : String) (val : V)
    (h : lookup es key = some val) : (key, val) ∈ es := by
  induction es with
  | nil => simp [lookup] at h
  | cons kv rest ih =>
    obtain ⟨k, old⟩ := kv
    by_cases hk : k = key
    · simp only [lookup, hk, if_true, Option.some.injEq] at h
      simp [hk, h]
    · simp only [lookup, hk, if_false] at h
      exact List.mem_cons_of_mem _ (ih h)

/-- Reading the contents is reading the entries and then the slice found. -/
theorem lookup_contents (arrays : List (List String)) (es : List (String × Slice))
    (key : String) :
    lookup (MD.contents { arrays := arrays, entries := some es }) key
      = (lookup es key).map (fun s => s.elems arrays) := by
  induction es with
  | nil => simp [MD.contents, lookup]
  | cons kv rest ih =>
    obtain ⟨k, s⟩ := kv
    simp only [MD.contents, List.map_cons] at ih ⊢
    by_cases hk : k = key
    · simp [lookup, hk]
    · simp [lookup, hk, ih]

end memory

/-! ## The carrier adapter -/

section carrier

variable {σ ε : Type}

/-- The inner loop for one key is the single loop over that key's occurrences. -/
theorem vals_eq_flat (decode : String → String → Except ε (String × String))
    (handler : σ → String → String → σ × Option ε) (k : String) (vs : List String)
    (acc : σ × List (Call ε)) :
    ForeachKey.vals decode handler k vs acc
      = ForeachKey.flat decode handler (vs.map (fun v => (k, v))) acc := by
  induction vs generalizing acc with
  | nil => rfl
  | cons v vs ih =>
    simp only [ForeachKey.vals, List.map_cons, ForeachKey.flat]
    cases hd : decode k v with
    | error err => rfl
    | ok q =>
      obtain ⟨dk, dv⟩ := q
      simp only []
      cases hh : handler acc.1 dk dv with
      | mk st ret =>
        cases ret with
        | none => simp only []; exact ih _
        | some err => rfl

/-- The single loop over a concatenation: the second part runs only when the
first part did not return. -/
theorem flat_append (decode : String → String → Except ε (String × String))
    (handler : σ → String → String → σ × Option ε) (xs ys : List (String × String))
    (acc : σ × List (Call ε)) :
    ForeachKey.flat decode handler (xs ++ ys) acc
      = match ForeachKey.flat decode handler xs acc with
        | (acc', some err) => (acc', some err)
        | (acc', none) => ForeachKey.flat decode handler ys acc' := by
  induction xs generalizing acc with
  | nil => simp [ForeachKey.flat]
  | cons x xs ih =>
    obtain ⟨k, v⟩ := x
    simp only [List.cons_append, ForeachKey.flat]
    cases hd : decode k v with
    | error err => rfl
    | ok q =>
      obtain ⟨dk, dv⟩ := q
      simp only []
      cases hh : handler acc.1 dk dv with
      | mk st ret =>
        cases ret with
        | none => simp only []; exact ih _
        | some err => rfl

/-- The nested loops of `ForeachKey` are the single loop over the stored
occurrences. -/
theorem keys_eq_flat (decode : String → String → Except ε (String × String))
    (handler : σ → String → String → σ × Option ε) (md : Contents) (acc : σ × List (Call ε)) :
    ForeachKey.keys decode handler md acc
      = ForeachKey.flat decode handler md.pairs acc := by
  induction md generalizing acc with
  | nil => rfl
  | cons kv rest ih =>
    obtain ⟨k, vals⟩ := kv
    have hpairs : Contents.pairs ((k, vals) :: rest) = vals.map (fun v => (k, v)) ++ Contents.pairs rest := by
      simp [Contents.pairs]
    rw [hpairs, flat_append, ForeachKey.keys, vals_eq_flat]
    cases hf : ForeachKey.flat decode handler (vals.map (fun v => (k, v))) acc with
    | mk acc' ret =>
      cases ret with
      | none => simp only []; exact ih _
      | some err => rfl

/-- The number of stored occurrences is the total number of values. -/
theorem pairs_length (md : Contents) : md.pairs.length = md.totalValues := by
  induction md with
  | nil => rfl
  | cons kv rest ih =>
    have hpairs : Contents.pairs (kv :: rest) = kv.2.map (fun v => (kv.1, v)) ++ Contents.pairs rest := by
      simp [Contents.pairs]
    rw [hpairs, List.length_append, ih]
    simp [Contents.totalValues]

/-- The single loop only appends to the record of visitor invocations. -/
theorem flat_acc (decode : String → String → Except ε (String × String))
    (handler : σ → String → String → σ × Option ε) (ps : List (String × String))
    (s : σ) (log : List (Call ε)) :
    ForeachKey.flat decode handler ps (s, log)
      = (((ForeachKey.flat decode handler ps (s, [])).1.1,
          log ++ (ForeachKey.flat decode handler ps (s, [])).1.2),
         (ForeachKey.flat decode handler ps (s, [])).2) := by
  induction ps generalizing s log with
  | nil => simp [ForeachKey.flat]
  | cons p ps ih =>
    obtain ⟨k, v⟩ := p
    simp only [ForeachKey.flat]
    cases hd : decode k v with
    | error err => simp
    | ok q =>
      obtain ⟨dk, dv⟩ := q
      simp only []
      cases hh : handler s dk dv with
      | mk st ret =>
        cases ret with
        | some err => simp
        | none =>
          simp only []
          rw [ih st (log ++ [(⟨dk, dv, none⟩ : Call ε)]),
            ih st ([] ++ [(⟨dk, dv, none⟩ : Call ε)])]
          simp

/-- What the single loop does, started with an empty record: the invocations are
the decoded forms of an initial segment of the occurrences; a returned error is
the error of the last invocation or the decode error of the first occurrence not
presented, every earlier invocation having returned nil; nil is returned only
after every occurrence was presented and accepted; and the record is what the
visitor does when fed those pairs in that order. -/
theorem flat_spec (decode : String → String → Except ε (String × String))
    (handler : σ → String → String → σ × Option ε) (ps : List (String × String)) (s : σ) :
    ((ForeachKey.flat decode handler ps (s, [])).1.2.map (fun c => Except.ok c.pair)
        = (ps.take (ForeachKey.flat decode handler ps (s, [])).1.2.length).map
            (fun p => decode p.1 p.2)) ∧
    (∀ e, (ForeachKey.flat decode handler ps (s, [])).2 = some e →
      (∃ init c, (ForeachKey.flat decode handler ps (s, [])).1.2 = init ++ [c] ∧
          c.ret = some e ∧ ∀ c' ∈ init, c'.ret = none) ∨
      ((∀ c ∈ (ForeachKey.flat decode handler ps (s, [])).1.2, c.ret = none) ∧
        ∃ p rest, ps.drop (ForeachKey.flat decode handler ps (s, [])).1.2.length = p :: rest ∧
          decode p.1 p.2 = .error e)) ∧
    ((ForeachKey.flat decode handler ps (s, [])).2 = none →
      (ForeachKey.flat decode handler ps (s, [])).1.2.length = ps.length ∧
        ∀ c ∈ (ForeachKey.flat decode handler ps (s, [])).1.2, c.ret = none) ∧
    replay handler s ((ForeachKey.flat decode handler ps (s, [])).1.2.map Call.pair)
      = ((ForeachKey.flat decode handler ps (s, [])).1.1,
          (ForeachKey.flat decode handler ps (s, [])).1.2.map Call.ret) := by
  induction ps generalizing s with
  | nil => simp [ForeachKey.flat, replay]
  | cons p ps ih =>
    obtain ⟨k, v⟩ := p
    cases hd : decode k v with
    | error err =>
      have hr : ForeachKey.flat decode handler ((k, v) :: ps) (s, []) = ((s, []), some err) := by
        simp [ForeachKey.flat, hd]
      rw [hr]
      refine ⟨by simp, ?_, by simp, by simp [replay]⟩
      intro e he
      refine Or.inr ⟨by simp, (k, v), ps, by simp, ?_⟩
      simp only [Option.some.injEq] at he
      rw [hd, he]
    | ok q =>
      obtain ⟨dk, dv⟩ := q
      cases hh : handler s dk dv with
      | mk st ret =>
        cases ret with
        | some err =>
          have hr : ForeachKey.flat decode handler ((k, v) :: ps) (s, [])
              = ((st, [⟨dk, dv, some err⟩]), some err) := by
            simp [ForeachKey.flat, hd, hh]
          rw [hr]
          refine ⟨by simp [Call.pair, hd], ?_, by simp, by simp [replay, Call.pair, hh]⟩
          intro e he
          simp only [Option.some.injEq] at he
          exact Or.inl ⟨[], ⟨dk, dv, some err⟩, by simp, by simp [he], by simp⟩
        | none =>
          have hr : ForeachKey.flat decode handler ((k, v) :: ps) (s, [])
              = (((ForeachKey.flat decode handler ps (st, [])).1.1,
                  ⟨dk, dv, none⟩ :: (ForeachKey.flat decode handler ps (st, [])).1.2),
                 (ForeachKey.flat decode handler ps (st, [])).2) := by
            simp only [ForeachKey.flat, hd, hh]
            rw [flat_acc]
            simp
          obtain ⟨ha, hb, hc, hd'⟩ := ih st
          rw [hr]
          refine ⟨?_, ?_, ?_, ?_⟩
          · simp only [List.map_cons, List.length_cons, List.take_succ_cons, Call.pair, hd]
            rw [← ha]
            rfl
          · intro e he
            rcases hb e he with ⟨init, c, hcalls, hret, hinit⟩ | ⟨hall, p, rest, hdrop, hdec⟩
            · refine Or.inl ⟨⟨dk, dv, none⟩ :: init, c, ?_, hret, ?_⟩
              · simp only []
                rw [hcalls]
                rfl
              · intro c' hc'
                rcases List.mem_cons.mp hc' with h | h
                · rw [h]
                · exact hinit c' h
            · refine Or.inr ⟨?_, p, rest, ?_, hdec⟩
              · intro c hc'
                rcases List.mem_cons.mp hc' with h | h
                · rw [h]
                · exact hall c h
              · simpa using hdrop
          · intro he
            obtain ⟨hlen, hall⟩ := hc he
            refine ⟨by simp only [List.length_cons]; rw [hlen], ?_⟩
            intro c hc'
            rcases List.mem_cons.mp hc' with h | h
            · rw [h]
            · exact hall c h
          · simp only [List.map_cons, replay, Call.pair, hh]
            have hd'' := hd'
            simp only [Call.pair] at hd''
            rw [hd'']

/-- A visitor that never fails returns nil every time it is fed a pair. -/
theorem replay_all_none (handler : σ → String → String → σ × Option ε)
    (hvis : ∀ s k v, (handler s k v).2 = none) (s : σ) (ps : List (String × String)) :
    ∀ r ∈ (replay handler s ps).2, r = none := by
  induction ps generalizing s with
  | nil => simp [replay]
  | cons p ps ih =>
    obtain ⟨k, v⟩ := p
    intro r hr
    simp only [replay, List.mem_cons] at hr
    rcases hr with h | h
    · rw [h, hvis]
    · exact ih _ r h

/-- With every occurrence decodable and a visitor that never fails, the single
loop presents the decoded form of every occurrence, in order, and returns nil. -/
theorem flat_all_ok (decode : String → String → Except ε (String × String))
    (handler : σ → String → String → σ × Option ε) (ps : List (String × String)) (s : σ)
    (hdec : ∀ p ∈ ps, ∃ q, decode p.1 p.2 = .ok q)
    (hvis : ∀ s k v, (handler s k v).2 = none) :
    (ForeachKey.flat decode handler ps (s, [])).1.2.map (fun c => Except.ok c.pair)
        = ps.map (fun p => decode p.1 p.2) ∧
    (ForeachKey.flat decode handler ps (s, [])).1.2.length = ps.length ∧
    (∀ c ∈ (ForeachKey.flat decode handler ps (s, [])).1.2, c.ret = none) ∧
    (ForeachKey.flat decode handler ps (s, [])).2 = none := by
  obtain ⟨ha, hb, hc, hd⟩ := flat_spec decode handler ps s
  have hrets : ∀ c ∈ (ForeachKey.flat decode handler ps (s, [])).1.2, c.ret = none := by
    intro c hc'
    apply replay_all_none handler hvis s
      ((ForeachKey.flat decode handler ps (s, [])).1.2.map Call.pair)
    rw [hd]
    exact List.mem_map_of_mem _ hc'
  have herr : (ForeachKey.flat decode handler ps (s, [])).2 = none := by
    cases he : (ForeachKey.flat decode handler ps (s, [])).2 with
    | none => rfl
    | some e =>
      exfalso
      rcases hb e he with ⟨init, c, hcalls, hret, _⟩ | ⟨_, p, rest, hdrop, hfail⟩
      · have hmem : c ∈ (ForeachKey.flat decode handler ps (s, [])).1.2 := by
          rw [hcalls]
          simp
        rw [hrets c hmem] at hret
        exact Option.noConfusion hret
      · have hp : p ∈ ps := by
          apply List.mem_of_mem_drop
          rw [hdrop]
          exact List.mem_cons_self _ _
        obtain ⟨q, hq⟩ := hdec p hp
        rw [hq] at hfail
        exact Except.noConfusion hfail
  obtain ⟨hlen, _⟩ := hc herr
  refine ⟨?_, hlen, hrets, herr⟩
  rw [ha, hlen, List.take_length]

/-- An occurrence is stored exactly when its value is among the values of an
entry with its key. -/
theorem mem_pairs (md : Contents) (k v : String) :
    (k, v) ∈ md.pairs ↔ ∃ vals, (k, vals) ∈ md ∧ v ∈ vals := by
  simp only [Contents.pairs, List.mem_flatMap, List.mem_map, Prod.mk.injEq]
  constructor
  · rintro ⟨⟨k', vals⟩, hmem, v', hv, hk, hvv⟩
    simp only at hv hk
    subst hk hvv
    exact ⟨vals, hmem, hv⟩
  · rintro ⟨vals, hmem, hv⟩
    exact ⟨(k, vals), hmem, v, hv, rfl, rfl⟩

/-- The result of `ForeachKey`, read off the single loop. -/
theorem foreachKey_eq (decode : String → String → Except ε (String × String))
    (w : metadataReaderWriter) (handler : σ → String → String → σ × Option ε) (s : σ) :
    (w.ForeachKey decode handler s).state
        = (ForeachKey.flat decode handler w.MD.contents.pairs (s, [])).1.1 ∧
    (w.ForeachKey decode handler s).calls
        = (ForeachKey.flat decode handler w.MD.contents.pairs (s, [])).1.2 ∧
    (w.ForeachKey decode handler s).err
        = (ForeachKey.flat decode handler w.MD.contents.pairs (s, [])).2 ∧
    (w.ForeachKey decode handler s).MD = w.MD := by
  simp [metadataReaderWriter.ForeachKey, keys_eq_flat]

/-- C7 (as the code has it): on an allocated map, after `Set(k, v)` the sequence
stored under `k` is the sequence stored before (empty when `k` was absent)
followed by `v`; and when the stored slices lie within allocated backing arrays
and the spare cell `append` writes to belongs to no slice stored under another
key, whatever was stored under any other key, or its absence, is unchanged. -/
theorem set_appends_value (growth : Nat → Nat) (w w' : metadataReaderWriter) (k v : String)
    (hset : w.Set growth k v = some w') :
    lookup w'.MD.contents k = some ((lookup w.MD.contents k).getD [] ++ [v]) ∧
    (w.MD.valid → w.MD.spareCellFree k →
      ∀ other, other ≠ k → lookup w'.MD.contents other = lookup w.MD.contents other) := by
  obtain ⟨⟨arrays, entries⟩⟩ := w
  cases entries with
  | none => simp [metadataReaderWriter.Set] at hset
  | some es =>
    simp only [metadataReaderWriter.Set, Option.some.injEq] at hset
    subst hset
    have hindex : MD.index { arrays := arrays, entries := some es } k
        = (lookup es k).getD Slice.zero := rfl
    refine ⟨?_, ?_⟩
    · rw [lookup_contents, lookup_assign_self, Option.map_some', elems_append_self,
        lookup_contents, hindex]
      cases lookup es k with
      | none => simp [Slice.elems, Slice.zero]
      | some s => simp
    · intro hvalid hfree other hne
      rw [lookup_contents, lookup_assign_other _ _ _ _ hne, lookup_contents]
      cases hl : lookup es other with
      | none => rfl
      | some s' =>
        have hmem : (other, s') ∈ es := mem_of_lookup es other s' hl
        simp only [Option.map_some', Option.some.injEq]
        apply elems_append_other
        · exact hvalid es rfl (other, s') hmem
        · intro hcap
          exact hfree hcap es rfl (other, s') hmem hne

/-- C8 (as the code has it): after `Set(k, v)` on an allocated map, in whatever
order the map is then enumerated, if every stored entry decodes and the visitor
never fails, `ForeachKey` presents the decoded form of `(k, v)` to the visitor;
that is `(k, v)` itself when the decode step returns this entry as it is. -/
theorem set_then_foreachKey (decode : String → String → Except ε (String × String))
    (growth : Nat → Nat) (w w' : metadataReaderWriter) (k v : String)
    (written order : List (String × Slice))
    (handler : σ → String → String → σ × Option ε) (s : σ)
    (hset : w.Set growth k v = some w')
    (hwritten : w'.MD.entries = some written)
    (hperm : order.Perm written)
    (hdec : ∀ p ∈ w'.MD.contents.pairs, ∃ q, decode p.1 p.2 = .ok q)
    (hvis : ∀ s k v, (handler s k v).2 = none) :
    (∃ q, decode k v = .ok q ∧
      q ∈ ((⟨{ arrays := w'.MD.arrays, entries := some order }⟩ :
        metadataReaderWriter).ForeachKey decode handler s).calls.map Call.pair) ∧
    (decode k v = .ok (k, v) →
      (k, v) ∈ ((⟨{ arrays := w'.MD.arrays, entries := some order }⟩ :
        metadataReaderWriter).ForeachKey decode handler s).calls.map Call.pair) := by
  obtain ⟨⟨arrays, entries⟩⟩ := w
  cases entries with
  | none => simp [metadataReaderWriter.Set] at hset
  | some es =>
    simp only [metadataReaderWriter.Set, Option.some.injEq] at hset
    subst hset
    simp only [Option.some.injEq] at hwritten
    subst hwritten
    simp only [MD.contents] at hdec
    have hcontents : ∀ l : List (String × Slice),
        MD.contents { arrays := (append growth arrays
            (MD.index { arrays := arrays, entries := some es } k) v).1, entries := some l }
          = l.map (fun kv => (kv.1, kv.2.elems (append growth arrays
            (MD.index { arrays := arrays, entries := some es } k) v).1)) := fun _ => rfl
    have hpermc := hperm.map (fun kv : String × Slice => (kv.1, kv.2.elems (append growth arrays
            (MD.index { arrays := arrays, entries := some es } k) v).1))
    have hstored : (k, v) ∈ Contents.pairs (MD.contents { arrays := (append growth arrays
            (MD.index { arrays := arrays, entries := some es } k) v).1, entries := some order }) := by
      rw [mem_pairs, hcontents]
      refine ⟨(append growth arrays (MD.index { arrays := arrays, entries := some es } k) v).2.elems
        (append growth arrays (MD.index { arrays := arrays, entries := some es } k) v).1, ?_, ?_⟩
      · rw [hpermc.mem_iff]
        exact List.mem_map_of_mem
          (fun kv : String × Slice => (kv.1, kv.2.elems (append growth arrays
            (MD.index { arrays := arrays, entries := some es } k) v).1)) (mem_assign es k _)
      · rw [elems_append_self]
        simp
    have hdec' : ∀ p ∈ Contents.pairs (MD.contents { arrays := (append growth arrays
            (MD.index { arrays := arrays, entries := some es } k) v).1, entries := some order }),
        ∃ q, decode p.1 p.2 = .ok q := by
      intro p hp
      apply hdec
      obtain ⟨pk, pv⟩ := p
      rw [mem_pairs] at hp ⊢
      rw [hcontents] at hp
      obtain ⟨vals, hmem, hv⟩ := hp
      exact ⟨vals, hpermc.mem_iff.mp hmem, hv⟩
    obtain ⟨hmap, _, _, _⟩ := flat_all_ok decode handler _ s hdec' hvis
    have hcalls := (foreachKey_eq decode ⟨{ arrays := (append growth arrays
            (MD.index { arrays := arrays, entries := some es } k) v).1, entries := some order }⟩
      handler s).2.1
    have hin : decode k v ∈
        ((⟨{ arrays := (append growth arrays
            (MD.index { arrays := arrays, entries := some es } k) v).1, entries := some order }⟩ :
          metadataReaderWriter).ForeachKey decode handler s).calls.map
          (fun c => Except.ok c.pair) := by
      rw [hcalls, hmap]
      exact List.mem_map_of_mem (fun p => decode p.1 p.2) hstored
    obtain ⟨c, hc, hck⟩ := List.mem_map.mp hin
    have hfound : ∃ q, decode k v = .ok q ∧
        q ∈ ((⟨{ arrays := (append growth arrays
            (MD.index { arrays := arrays, entries := some es } k) v).1, entries := some order }⟩ :
          metadataReaderWriter).ForeachKey decode handler s).calls.map Call.pair :=
      ⟨c.pair, hck.symm, List.mem_map_of_mem _ hc⟩
    refine ⟨hfound, ?_⟩
    intro hid
    obtain ⟨q, hq, hmem⟩ := hfound
    rw [hid] at hq
    rw [Except.ok.injEq] at hq
    rw [hq]
    exact hmem

/-- C9: `ForeachKey` is fail-fast.  The visitor invocations are the decoded forms
of an initial segment of the stored occurrences, in order.  A returned error is
either the error the visitor returned on its last invocation, or the decode
error of the first occurrence not presented; in both cases every earlier
invocation returned nil, so nothing is presented after the first failure.  Nil
is returned only when every occurrence was decoded and presented and the
visitor returned nil each time.  The recorded return values are what the
visitor returns when fed these pairs in this order. -/
theorem foreachKey_fail_fast (decode : String → String → Except ε (String × String))
    (w : metadataReaderWriter) (handler : σ → String → String → σ × Option ε) (s : σ) :
    ((w.ForeachKey decode handler s).calls.map (fun c => Except.ok c.pair)
        = (w.MD.contents.pairs.take (w.ForeachKey decode handler s).calls.length).map
            (fun p => decode p.1 p.2)) ∧
    (∀ e, (w.ForeachKey decode handler s).err = some e →
      (∃ init c, (w.ForeachKey decode handler s).calls = init ++ [c] ∧
          c.ret = some e ∧ ∀ c' ∈ init, c'.ret = none) ∨
      ((∀ c ∈ (w.ForeachKey decode handler s).calls, c.ret = none) ∧
        ∃ p rest, w.MD.contents.pairs.drop (w.ForeachKey decode handler s).calls.length = p :: rest ∧
          decode p.1 p.2 = .error e)) ∧
    ((w.ForeachKey decode handler s).err = none →
      (w.ForeachKey decode handler s).calls.length = w.MD.contents.pairs.length ∧
        (∀ p ∈ w.MD.contents.pairs, ∃ q, decode p.1 p.2 = .ok q) ∧
        ∀ c ∈ (w.ForeachKey decode handler s).calls, c.ret = none) ∧
    replay handler s ((w.ForeachKey decode handler s).calls.map Call.pair)
      = ((w.ForeachKey decode handler s).state,
          (w.ForeachKey decode handler s).calls.map Call.ret) := by
  obtain ⟨hstate, hcalls, herr, _⟩ := foreachKey_eq decode w handler s
  obtain ⟨ha, hb, hc, hd⟩ := flat_spec decode handler w.MD.contents.pairs s
  rw [hstate, hcalls, herr]
  refine ⟨ha, hb, ?_, hd⟩
  intro hnone
  obtain ⟨hlen, hall⟩ := hc hnone
  refine ⟨hlen, ?_, hall⟩
  intro p hp
  rw [hlen, List.take_length] at ha
  have hin : decode p.1 p.2 ∈
      (ForeachKey.flat decode handler w.MD.contents.pairs (s, [])).1.2.map
        (fun c => Except.ok c.pair) := by
    rw [ha]
    exact List.mem_map_of_mem (fun p => decode p.1 p.2) hp
  obtain ⟨c, _, hck⟩ := List.mem_map.mp hin
  exact ⟨c.pair, hck.symm⟩

/-- C10: when every stored entry decodes and the visitor never fails,
`ForeachKey` invokes the visitor once for each stored occurrence, key by key and
within a key in stored order, each time with the decoded pair of that
occurrence: as many invocations as the map holds values in total; it returns
nil and the map is as it was. -/
theorem foreachKey_visits_all (decode : String → String → Except ε (String × String))
    (w : metadataReaderWriter) (handler : σ → String → String → σ × Option ε) (s : σ)
    (hdec : ∀ p ∈ w.MD.contents.pairs, ∃ q, decode p.1 p.2 = .ok q)
    (hvis : ∀ s k v, (handler s k v).2 = none) :
    ((w.ForeachKey decode handler s).calls.map (fun c => Except.ok c.pair)
        = w.MD.contents.pairs.map (fun p => decode p.1 p.2)) ∧
    (w.ForeachKey decode handler s).calls.length = w.MD.contents.totalValues ∧
    (w.ForeachKey decode handler s).err = none ∧
    (w.ForeachKey decode handler s).MD = w.MD := by
  obtain ⟨_, hcalls, herr, hmd⟩ := foreachKey_eq decode w handler s
  obtain ⟨hmap, hlen, _, hnone⟩ := flat_all_ok decode handler w.MD.contents.pairs s hdec hvis
  rw [hcalls, herr]
  exact ⟨hmap, by rw [hlen, pairs_length], hnone, hmd⟩

end carrier

/-! ## Concrete runs -/

section runs

/-- C1 at a call without metadata whose extraction reports an error: the
handler's pair comes back. -/
theorem interceptor_returns_handler_pair_witness :
    ((OpenTracingServerInterceptor (sampleTracer (none, some "not found")) [] sampleContext
        "ping" sampleInfo pongHandler).resp,
      (OpenTracingServerInterceptor (sampleTracer (none, some "not found")) [] sampleContext
        "ping" sampleInfo pongHandler).err) = ("pong", none) :=
  (interceptor_returns_handler_pair (sampleTracer (none, some "not found")) [] sampleContext
    "ping" sampleInfo pongHandler).1

/-- C2 at a failing handler with payload logging on. -/
theorem interceptor_effect_order_witness :
    ∃ opts pre post,
      (OpenTracingServerInterceptor (sampleTracer (some 5, none)) [LogPayloads] sampleContext
          "ping" sampleInfo failingHandler).events =
        [.Extract (carrierOf sampleContext), .StartSpan sampleInfo.FullMethod opts] ++ pre
          ++ [.handler (ContextWithSpan sampleContext
                ((sampleTracer (some 5, none)).StartSpan sampleInfo.FullMethod opts)) "ping"]
          ++ post
          ++ [.Finish ((sampleTracer (some 5, none)).StartSpan sampleInfo.FullMethod opts)] ∧
      ∀ e ∈ pre ++ post,
        Event.writesTo ((sampleTracer (some 5, none)).StartSpan sampleInfo.FullMethod opts) e :=
  interceptor_effect_order (sampleTracer (some 5, none)) [LogPayloads] sampleContext
    "ping" sampleInfo failingHandler

/-- C3 at a call whose extraction finds context `5`: the span is its child. -/
theorem interceptor_start_span_witness :
    (sampleTracer (some 5, none)).Extract (carrierOf sampleContext) = (some 5, none) ∧
    parents [StartSpanOption.RPCServerOption (some 5), .Tag ⟨"component", "gRPC"⟩] = [5] :=
  ⟨rfl, (interceptor_start_span (sampleTracer (some 5, none)) [] sampleContext
    "ping" sampleInfo pongHandler).2 5 rfl⟩

/-- C4 as claimed fails: a tracer whose `Extract` returns an error together with
context `1` gets that context back as the parent of the span. -/
theorem interceptor_extract_error_counterexample :
    extractError (sampleTracer (some 1, some "corrupted")) sampleContext = some "corrupted" ∧
    Event.StartSpan "/Svc/Echo" [.RPCServerOption (some 1), .Tag gRPCComponentTag] ∈
      (OpenTracingServerInterceptor (sampleTracer (some 1, some "corrupted")) [] sampleContext
        "ping" sampleInfo pongHandler).events ∧
    parents [StartSpanOption.RPCServerOption (some 1), .Tag gRPCComponentTag] = [1] := by
  decide

/-- C4 at a tracer whose `Extract` returns an error and the nil context: the
one `StartSpan` of the run names no parent and the handler's pair comes back. -/
theorem interceptor_extract_error_witness :
    (sampleTracer (none, some "corrupted")).Extract (carrierOf sampleContext)
      = (none, some "corrupted") ∧
    (OpenTracingServerInterceptor (sampleTracer (none, some "corrupted")) [] sampleContext
        "ping" sampleInfo pongHandler).events
      = [.Extract (carrierOf sampleContext),
          .StartSpan "/Svc/Echo" [.RPCServerOption none, .Tag gRPCComponentTag],
          .handler { sampleContext with span := some 7 } "ping",
          .Finish 7] ∧
    parents [StartSpanOption.RPCServerOption (none : Option Nat), .Tag gRPCComponentTag] = [] ∧
    ((OpenTracingServerInterceptor (sampleTracer (none, some "corrupted")) [] sampleContext
        "ping" sampleInfo pongHandler).resp,
      (OpenTracingServerInterceptor (sampleTracer (none, some "corrupted")) [] sampleContext
        "ping" sampleInfo pongHandler).err) = ("pong", none) := by
  obtain ⟨⟨pre, post, hev, -⟩, -, hroot, hpair⟩ :=
    interceptor_extract_error (sampleTracer (none, some "corrupted")) [] sampleContext
      "ping" sampleInfo pongHandler none "corrupted" rfl
  exact ⟨rfl, by decide, hroot rfl, hpair⟩

/-- C5 at a failing handler without payload logging: the error tag is set. -/
theorem interceptor_error_recording_witness :
    Event.SetTag 7 Error true ∈
      (OpenTracingServerInterceptor (sampleTracer (none, none)) [] sampleContext
        "ping" sampleInfo failingHandler).events :=
  (interceptor_error_recording (sampleTracer (none, none)) [] sampleContext
    "ping" sampleInfo failingHandler).1.mpr (by decide)

/-- C6 at the option list `[LogPayloads]`: the request is logged. -/
theorem interceptor_payload_logging_witness :
    (∀ opt ∈ [LogPayloads], opt = LogPayloads) ∧
    Event.LogEventWithPayload 7 "gRPC request" (.req "ping") ∈
      (OpenTracingServerInterceptor (sampleTracer (none, none)) [LogPayloads] sampleContext
        "ping" sampleInfo pongHandler).events := by
  refine ⟨by simp, ?_⟩
  obtain ⟨⟨pre, post, hev, hpre, -⟩, -⟩ :=
    interceptor_payload_logging (sampleTracer (none, none)) [LogPayloads] sampleContext
      "ping" sampleInfo pongHandler (by simp)
  rw [hev, hpre (by simp)]
  simp [serverSpan, sampleTracer]

/-- C7 as claimed fails: with `a` stored as `base[:2]` and `b` as `base[:3]` over
one backing array, `Set("a", "3")` writes into the cell that is the third
element of `b`; and on the nil map `Set` panics. -/
theorem set_appends_value_counterexample :
    lookup aliasedCarrier.MD.contents "b" = some ["1", "2", "x"] ∧
    (aliasedCarrier.Set sampleGrowth "a" "3").map (fun w => lookup w.MD.contents "b")
      = some (some ["1", "2", "3"]) ∧
    nilCarrier.Set sampleGrowth "a" "3" = none := by
  decide

/-- C7 at a key that holds two values and has a cell to spare that no other key
shares. -/
theorem set_appends_value_witness :
    roomyCarrier.Set sampleGrowth "a" "3" = some roomyCarrierSet ∧
    roomyCarrier.MD.valid ∧
    roomyCarrier.MD.spareCellFree "a" ∧
    lookup roomyCarrierSet.MD.contents "a" = some ["1", "2", "3"] ∧
    lookup roomyCarrierSet.MD.contents "b" = some ["9"] :=
  have hset : roomyCarrier.Set sampleGrowth "a" "3" = some roomyCarrierSet := by decide
  have hvalid : roomyCarrier.MD.valid := by
    intro es hes kv hkv
    simp only [roomyCarrier, Option.some.injEq] at hes
    subst hes
    simp only [List.mem_cons, List.mem_singleton, List.not_mem_nil, or_false] at hkv
    rcases hkv with rfl | rfl <;> simp [Slice.valid, roomyCarrier]
  have hfree : roomyCarrier.MD.spareCellFree "a" := by
    intro _ es hes kv hkv hne
    simp only [roomyCarrier, Option.some.injEq] at hes
    subst hes
    simp only [List.mem_cons, List.mem_singleton, List.not_mem_nil, or_false] at hkv
    rcases hkv with rfl | rfl
    · exact absurd rfl hne
    · simp [Slice.covers, roomyCarrier, MD.index, lookup]
  ⟨hset, hvalid, hfree,
    (set_appends_value sampleGrowth roomyCarrier roomyCarrierSet "a" "3" hset).1,
    (set_appends_value sampleGrowth roomyCarrier roomyCarrierSet "a" "3" hset).2
      hvalid hfree "b" (by decide)⟩

/-- C8 as claimed fails: after `Set("k-bin", "!")` on the empty map, `ForeachKey`
with a visitor that never fails returns the decode error without presenting
anything; and after `Set("k-bin", "aGk=")` the visitor is given the decoded
value `"hi"`, not the written one. -/
theorem set_then_foreachKey_counterexample :
    ((⟨New⟩ : metadataReaderWriter).Set sampleGrowth "k-bin" "!").map
        (fun w => ((w.ForeachKey DecodeKeyValue countingVisitor 0).calls.map Call.pair,
          (w.ForeachKey DecodeKeyValue countingVisitor 0).err))
      = some ([], some (.corruptInput "k-bin" "!")) ∧
    ((⟨New⟩ : metadataReaderWriter).Set sampleGrowth "k-bin" "aGk=").map
        (fun w => (w.ForeachKey DecodeKeyValue countingVisitor 0).calls.map Call.pair)
      = some [("k-bin", "hi")] := by
  decide

/-- C8 at a plain key written next to another one, the map then enumerated with
the new key first. -/
theorem set_then_foreachKey_witness :
    singleCarrier.Set sampleGrowth "b" "2" = some singleCarrierSet ∧
    List.Perm [("b", (⟨1, 0, 1, 2⟩ : Slice)), ("a", ⟨0, 0, 1, 1⟩)]
      [("a", ⟨0, 0, 1, 1⟩), ("b", ⟨1, 0, 1, 2⟩)] ∧
    (∀ p ∈ singleCarrierSet.MD.contents.pairs, ∃ q, DecodeKeyValue p.1 p.2 = .ok q) ∧
    (∀ s k v, (countingVisitor s k v).2 = none) ∧
    ("b", "2") ∈
      ((⟨{ arrays := [["1"], ["2", ""]],
           entries := some [("b", ⟨1, 0, 1, 2⟩), ("a", ⟨0, 0, 1, 1⟩)] }⟩ :
        metadataReaderWriter).ForeachKey DecodeKeyValue countingVisitor 0).calls.map
        Call.pair :=
  have hset : singleCarrier.Set sampleGrowth "b" "2" = some singleCarrierSet := by decide
  have hperm : List.Perm [("b", (⟨1, 0, 1, 2⟩ : Slice)), ("a", ⟨0, 0, 1, 1⟩)]
      [("a", ⟨0, 0, 1, 1⟩), ("b", ⟨1, 0, 1, 2⟩)] :=
    List.Perm.swap _ _ _
  have hpairs : singleCarrierSet.MD.contents.pairs = [("a", "1"), ("b", "2")] := by decide
  have hdec : ∀ p ∈ singleCarrierSet.MD.contents.pairs,
      ∃ q, DecodeKeyValue p.1 p.2 = .ok q := by
    intro p hp
    rw [hpairs] at hp
    simp only [List.mem_cons, List.mem_singleton, List.not_mem_nil, or_false] at hp
    rcases hp with rfl | rfl <;> exact ⟨_, rfl⟩
  ⟨hset, hperm, hdec, fun _ _ _ => rfl,
    (set_then_foreachKey DecodeKeyValue sampleGrowth singleCarrier singleCarrierSet "b" "2"
      [("a", ⟨0, 0, 1, 1⟩), ("b", ⟨1, 0, 1, 2⟩)]
      [("b", ⟨1, 0, 1, 2⟩), ("a", ⟨0, 0, 1, 1⟩)]
      countingVisitor 0 hset rfl hperm hdec (fun _ _ _ => rfl)).2 rfl⟩

/-- C9 at a map whose binary key holds a valid value and then a corrupt one: the
decode error is returned and only the first occurrence was presented. -/
theorem foreachKey_fail_fast_witness :
    (malformedCarrier.ForeachKey DecodeKeyValue countingVisitor 0).err
      = some (.corruptInput "k-bin" "!") ∧
    (malformedCarrier.ForeachKey DecodeKeyValue countingVisitor 0).calls.map
        (fun c => Except.ok c.pair)
      = (malformedCarrier.MD.contents.pairs.take 1).map (fun p => DecodeKeyValue p.1 p.2) :=
  ⟨by decide, (foreachKey_fail_fast DecodeKeyValue malformedCarrier countingVisitor 0).1⟩

/-- C10 at a map with two keys and three values: three invocations, nil returned. -/
theorem foreachKey_visits_all_witness :
    (∀ p ∈ sampleCarrier.MD.contents.pairs, ∃ q, DecodeKeyValue p.1 p.2 = .ok q) ∧
    (∀ s k v, (countingVisitor s k v).2 = none) ∧
    (sampleCarrier.ForeachKey DecodeKeyValue countingVisitor 0).calls.length = 3 ∧
    (sampleCarrier.ForeachKey DecodeKeyValue countingVisitor 0).err = none :=
  have hdec : ∀ p ∈ sampleCarrier.MD.contents.pairs, ∃ q, DecodeKeyValue p.1 p.2 = .ok q := by
    intro p hp
    have hpairs : sampleCarrier.MD.contents.pairs
        = [("a", "1"), ("a", "2"), ("k-bin", "aGk=")] := by decide
    rw [hpairs] at hp
    simp only [List.mem_cons, List.mem_singleton, List.not_mem_nil, or_false] at hp
    rcases hp with rfl | rfl | rfl <;> exact ⟨_, rfl⟩
  ⟨hdec, fun _ _ _ => rfl,
    (foreachKey_visits_all DecodeKeyValue sampleCarrier countingVisitor 0 hdec
      (fun _ _ _ => rfl)).2.1,
    (foreachKey_visits_all DecodeKeyValue sampleCarrier countingVisitor 0 hdec
      (fun _ _ _ => rfl)).2.2.1⟩

end runs

end otgrpc
